import Mathlib

/-!
# Verification of the Sudoku solver core (`solve_sudoku_optimized` in `app.py`)

Shallow embedding of the backtracking Sudoku solver.  The Python code
mutates a 9×9 numpy `board` and a worklist `empty_cells` in place; we
model this by explicit state passing: the board is a total function
`Fin 9 → Fin 9 → ℕ` and the worklist a `List (Fin 9 × Fin 9)`, and every
function returns the updated state it would have left behind.

The Python recursion carries no explicit bound; to obtain a total Lean
function we index `backtrack` by fuel (one unit per nested recursive
call).  `backtrack_fuel_sufficient` below proves that fuel equal to the
length of the worklist plus one is never exhausted, so the fuelled
function agrees with the unbounded Python recursion.
-/

namespace Sudoku

open scoped List

/-- A board state: `board[i, j]`, with `0` meaning an empty cell. -/
abbrev Grid := Fin 9 → Fin 9 → ℕ

/-- A cell coordinate `(row, col)`. -/
abbrev Coord := Fin 9 × Fin 9

/-- The in-place write `board[r, c] = v`, modelled functionally. -/
def setCell (g : Grid) (r c : Fin 9) (v : ℕ) : Grid :=
  fun i j => if i = r ∧ j = c then v else g i j

/-- `set(board[row, :])`: the values occurring in row `r`. -/
def rowSet (g : Grid) (r : Fin 9) : Finset ℕ :=
  Finset.image (fun j => g r j) Finset.univ

/-- `set(board[:, col])`: the values occurring in column `c`. -/
def colSet (g : Grid) (c : Fin 9) : Finset ℕ :=
  Finset.image (fun i => g i c) Finset.univ

/-- The coordinates of the slice
`board[start_row:start_row+3, start_col:start_col+3]` with
`start_row, start_col = 3*(row//3), 3*(col//3)`. -/
def blockCells (r c : Fin 9) : Finset Coord :=
  Finset.univ.filter (fun p : Coord =>
    3 * (r.val / 3) ≤ p.1.val ∧ p.1.val < 3 * (r.val / 3) + 3 ∧
    3 * (c.val / 3) ≤ p.2.val ∧ p.2.val < 3 * (c.val / 3) + 3)

/-- The values occurring in the 3×3 block containing `(r, c)`. -/
def blockSet (g : Grid) (r c : Fin 9) : Finset ℕ :=
  Finset.image (fun p : Coord => g p.1 p.2) (blockCells r c)

/-- `candidates(row, col)` as a set:
`set(range(1, 10))` minus the row's values, minus the column's values,
minus the block's values. -/
def candSet (g : Grid) (r c : Fin 9) : Finset ℕ :=
  ((Finset.Icc 1 9 \ rowSet g r) \ colSet g c) \ blockSet g r c

/-- `list(nums)` at the end of `candidates`: CPython iterates a set of
small ints `1..9` in ascending numeric order (hash of a small int is
itself, and the table has one slot per value), so the returned list is
the candidate set enumerated ascending, here as the digits `0..9` kept
when they belong to the set. -/
def candidates (g : Grid) (r c : Fin 9) : List ℕ :=
  (List.range 10).filter (fun n => decide (n ∈ candSet g r c))

/-- `empty_cells = [(i, j) for i in range(9) for j in range(9) if board[i, j] == 0]`. -/
def empty_cells (g : Grid) : List Coord :=
  (List.finRange 9).flatMap (fun i =>
    ((List.finRange 9).filter (fun j => g i j == 0)).map (fun j => (i, j)))

/-- The comparison used by `empty_cells.sort(key=lambda pos: len(candidates(*pos)))`. -/
def candLe (g : Grid) (p q : Coord) : Prop :=
  (candidates g p.1 p.2).length ≤ (candidates g q.1 q.2).length

instance (g : Grid) : DecidableRel (candLe g) := fun _ _ => Nat.decLe _ _

instance (g : Grid) : IsTrans Coord (candLe g) := ⟨fun _ _ _ => Nat.le_trans⟩

instance (g : Grid) : IsTotal Coord (candLe g) := ⟨fun _ _ => Nat.le_total _ _⟩

/-- The `for num in candidates(row, col)` loop body of `backtrack`:
assign `board[row, col] = num`, recurse (`bt` is the recursive call at
the next fuel level), on success propagate, on failure reset
`board[row, col] = 0` and try the next candidate; when the candidates
are exhausted, `empty_cells.insert(0, (row, col))` and return `False`. -/
def tryNums (bt : Grid → List Coord → Option (Bool × Grid × List Coord))
    (r c : Fin 9) : List ℕ → Grid → List Coord → Option (Bool × Grid × List Coord)
  | [], g, cells => some (false, g, (r, c) :: cells)
  | n :: ns, g, cells =>
    match bt (setCell g r c n) cells with
    | none => none
    | some (true, g', cells') => some (true, g', cells')
    | some (false, g', cells') => tryNums bt r c ns (setCell g' r c 0) cells'

/-- The recursive `backtrack()`:
`if not empty_cells: return True`, otherwise
`empty_cells.sort(key=lambda pos: len(candidates(*pos)))`,
`row, col = empty_cells.pop(0)`, and the candidate loop.  Python's
`list.sort` is a stable sort; a stable sort of a list under a total
preorder is unique, so it is modelled by the stable `insertionSort`.
The sort of a list is `[]` exactly when the list is `[]`, so the
emptiness test and the sort are handled by one `match`; in the empty
case the untouched worklist (then `[]`) is returned.  `none` is
returned only when the fuel runs out, which `backtrack_fuel_sufficient`
shows never happens for the fuel used by `solve_sudoku_optimized`. -/
def backtrack : ℕ → Grid → List Coord → Option (Bool × Grid × List Coord)
  | 0, _, _ => none
  | fuel + 1, g, cells =>
    match cells.insertionSort (candLe g) with
    | [] => some (true, g, cells)
    | (r, c) :: rest => tryNums (backtrack fuel) r c (candidates g r c) g rest

/-- `solve_sudoku_optimized(board)`: build the initial worklist and run
`backtrack`, returning the boolean together with the board state left
behind.  The fuel `(empty_cells g).length + 1` matches the recursion
depth of the Python function (one frame per worklist element plus the
final frame that sees an empty worklist). -/
def solve_sudoku_optimized (g : Grid) : Bool × Grid :=
  match backtrack ((empty_cells g).length + 1) g (empty_cells g) with
  | some (b, g', _) => (b, g')
  | none => (false, g)

/-! ## Specification-side predicates -/

/-- Two coordinates lie in the same 3×3 block. -/
def sameBlock (p q : Coord) : Prop :=
  p.1.val / 3 = q.1.val / 3 ∧ p.2.val / 3 = q.2.val / 3

/-- No row, column, or 3×3 block contains a duplicated non-zero value. -/
def consistent (g : Grid) : Prop :=
  (∀ r j₁ j₂ : Fin 9, j₁ ≠ j₂ → g r j₁ ≠ 0 → g r j₁ ≠ g r j₂) ∧
  (∀ c i₁ i₂ : Fin 9, i₁ ≠ i₂ → g i₁ c ≠ 0 → g i₁ c ≠ g i₂ c) ∧
  (∀ p q : Coord, sameBlock p q → p ≠ q → g p.1 p.2 ≠ 0 → g p.1 p.2 ≠ g q.1 q.2)

/-- The worklist invariant of the search: the worklist has no duplicate
and holds exactly the coordinates whose cell is `0`. -/
def Inv (g : Grid) (cells : List Coord) : Prop :=
  cells.Nodup ∧ ∀ p : Coord, p ∈ cells ↔ g p.1 p.2 = 0

/-- What a successful search guarantees about the final board `g'`
relative to the board `g` it started from: originally non-zero cells
are untouched, originally empty cells now hold a digit in `1..9`, and
consistency is preserved. -/
def FrameOK (g g' : Grid) : Prop :=
  (∀ r c : Fin 9, g r c ≠ 0 → g' r c = g r c) ∧
  (∀ r c : Fin 9, g r c = 0 → g' r c ∈ Finset.Icc 1 9) ∧
  (consistent g → consistent g')

instance (g : Grid) : Decidable (consistent g) := by
  unfold consistent sameBlock
  infer_instance

instance (g : Grid) (cells : List Coord) : Decidable (Inv g cells) := by
  unfold Inv
  infer_instance

/-! ## Concrete boards used as test inputs -/

/-- The all-empty board. -/
def zeroGrid : Grid := fun _ _ => 0

/-- A fully filled board every cell of which holds `1`: full, but
violating every row/column/block constraint. -/
def onesGrid : Grid := fun _ _ => 1

/-- A fully filled valid board (the standard shifted pattern). -/
def gFull : Grid := fun i j => (3 * (i.val % 3) + i.val / 3 + j.val) % 9 + 1

/-- A board with a single empty cell `(0, 0)` that has no candidate:
row 0 holds `1..8`, and `9` sits at `(1, 0)` in its column.  `solve`
fails on it and must hand the board back unchanged. -/
def gStuck : Grid := fun i j =>
  if i.val = 0 then j.val else if i.val = 1 ∧ j.val = 0 then 9 else 1

/-- A board with two empty cells `(0, 0)` and `(0, 1)`: row 0 otherwise
holds `2..8`, a `9` sits at `(3, 1)`, and every other cell holds `2`.
Writing `1` into `(0, 0)` leaves `(0, 1)` without candidates, so that
branch of the search fails and must undo its write. -/
def gW7 : Grid := fun i j =>
  if i.val = 0 then (if j.val ≤ 1 then 0 else j.val)
  else if i.val = 3 ∧ j.val = 1 then 9 else 2

/-! ## Basic lemmas about cell updates and candidate sets -/

theorem setCell_same (g : Grid) (r c : Fin 9) (v : ℕ) : setCell g r c v r c = v := by
  simp [setCell]

theorem setCell_of_ne (g : Grid) (r c : Fin 9) (v : ℕ) {i j : Fin 9}
    (h : ¬(i = r ∧ j = c)) : setCell g r c v i j = g i j := by
  simp [setCell, h]

theorem setCell_setCell (g : Grid) (r c : Fin 9) (a b : ℕ) :
    setCell (setCell g r c a) r c b = setCell g r c b := by
  funext i j
  by_cases h : i = r ∧ j = c <;> simp [setCell, h]

theorem setCell_zero_of_zero (g : Grid) (r c : Fin 9) (h : g r c = 0) :
    setCell g r c 0 = g := by
  funext i j
  by_cases hij : i = r ∧ j = c
  · obtain ⟨rfl, rfl⟩ := hij
    simp [setCell, h]
  · simp [setCell, hij]

theorem mem_candSet {g : Grid} {r c : Fin 9} {n : ℕ} :
    n ∈ candSet g r c ↔
      (1 ≤ n ∧ n ≤ 9) ∧ (∀ j, g r j ≠ n) ∧ (∀ i, g i c ≠ n) ∧
        ∀ p ∈ blockCells r c, g p.1 p.2 ≠ n := by
  simp only [candSet, rowSet, colSet, blockSet, Finset.mem_sdiff, Finset.mem_image,
    Finset.mem_Icc, Finset.mem_univ, true_and, not_exists, Prod.exists]
  constructor
  · rintro ⟨⟨⟨hIcc, hrow⟩, hcol⟩, hblk⟩
    refine ⟨hIcc, hrow, hcol, fun p hp => ?_⟩
    intro he
    exact hblk p.1 p.2 ⟨by simpa using hp, he⟩
  · rintro ⟨hIcc, hrow, hcol, hblk⟩
    refine ⟨⟨⟨hIcc, hrow⟩, hcol⟩, ?_⟩
    rintro a b ⟨hab, he⟩
    exact hblk (a, b) hab he

theorem candSet_range {g : Grid} {r c : Fin 9} {n : ℕ} (h : n ∈ candSet g r c) :
    1 ≤ n ∧ n ≤ 9 := by
  have := mem_candSet.1 h
  exact this.1

theorem mem_candidates {g : Grid} {r c : Fin 9} {n : ℕ} :
    n ∈ candidates g r c ↔ n ∈ candSet g r c := by
  simp only [candidates, List.mem_filter, List.mem_range, decide_eq_true_eq]
  constructor
  · exact fun h => h.2
  · intro h
    exact ⟨by have := (candSet_range h).2; omega, h⟩

theorem candidates_sorted (g : Grid) (r c : Fin 9) :
    List.Pairwise (· < ·) (candidates g r c) :=
  List.Pairwise.filter _ (List.pairwise_lt_range 10)

theorem mem_blockCells {r c : Fin 9} {p : Coord} :
    p ∈ blockCells r c ↔ p.1.val / 3 = r.val / 3 ∧ p.2.val / 3 = c.val / 3 := by
  have h1 := p.1.isLt
  have h2 := p.2.isLt
  have h3 := r.isLt
  have h4 := c.isLt
  simp only [blockCells, Finset.mem_filter, Finset.mem_univ, true_and]
  omega

/-! ## Lemmas about the initial worklist and the worklist invariant -/

theorem mem_empty_cells {g : Grid} {p : Coord} : p ∈ empty_cells g ↔ g p.1 p.2 = 0 := by
  obtain ⟨i, j⟩ := p
  simp only [empty_cells, List.mem_flatMap, List.mem_map, List.mem_filter,
    List.mem_finRange, true_and, beq_iff_eq, Prod.mk.injEq]
  constructor
  · rintro ⟨a, b, hb, rfl, rfl⟩
    exact hb
  · intro h
    exact ⟨i, j, h, rfl, rfl⟩

theorem nodup_empty_cells (g : Grid) : (empty_cells g).Nodup := by
  apply List.nodup_flatMap.2
  constructor
  · intro i _
    exact (((List.nodup_finRange 9).filter _).map (fun a b hab => by
      simpa using congrArg Prod.snd hab))
  · refine (List.nodup_finRange 9).imp ?_
    intro i₁ i₂ hne
    intro p hp₁ hp₂
    simp only [Function.onFun, List.mem_map, List.mem_filter] at hp₁ hp₂
    obtain ⟨a, _, rfl⟩ := hp₁
    obtain ⟨b, _, hab⟩ := hp₂
    exact hne (congrArg Prod.fst hab).symm

theorem Inv_empty_cells (g : Grid) : Inv g (empty_cells g) :=
  ⟨nodup_empty_cells g, fun _ => mem_empty_cells⟩

theorem Inv.perm {g : Grid} {cells cells' : List Coord} (h : Inv g cells)
    (hp : cells' ~ cells) : Inv g cells' :=
  ⟨hp.nodup_iff.2 h.1, fun p => hp.mem_iff.trans (h.2 p)⟩

theorem Inv.head_zero {g : Grid} {r c : Fin 9} {cells : List Coord}
    (h : Inv g ((r, c) :: cells)) : g r c = 0 :=
  (h.2 (r, c)).1 (List.mem_cons_self _ _)

theorem Inv.head_not_mem {g : Grid} {r c : Fin 9} {cells : List Coord}
    (h : Inv g ((r, c) :: cells)) : (r, c) ∉ cells :=
  (List.nodup_cons.1 h.1).1

/-- The state handed to each recursive call satisfies the worklist
invariant again: pop `(r, c)` and write a candidate digit into it. -/
theorem Inv.assign {g : Grid} {cells : List Coord} {r c : Fin 9} {n : ℕ}
    (h : Inv g ((r, c) :: cells)) (hn : n ∈ candSet g r c) :
    Inv (setCell g r c n) cells := by
  obtain ⟨hnd, hmem⟩ := h
  have hcn : (r, c) ∉ cells := (List.nodup_cons.1 hnd).1
  refine ⟨(List.nodup_cons.1 hnd).2, fun p => ?_⟩
  by_cases hp : p = (r, c)
  · subst hp
    rw [setCell_same]
    have h1 := (candSet_range hn).1
    simp only [hcn, false_iff]
    omega
  · have hne : ¬(p.1 = r ∧ p.2 = c) := by
      intro ⟨h1, h2⟩
      exact hp (Prod.ext h1 h2)
    rw [setCell_of_ne _ _ _ _ hne]
    constructor
    · intro hin
      exact (hmem p).1 (List.mem_cons_of_mem _ hin)
    · intro h0
      rcases List.mem_cons.1 ((hmem p).2 h0) with h | h
      · exact absurd h hp
      · exact h

/-! ## Preservation of consistency by a single candidate placement -/

theorem setCell_ne_coord (g : Grid) (r c : Fin 9) (v : ℕ) {p : Coord} (h : p ≠ (r, c)) :
    setCell g r c v p.1 p.2 = g p.1 p.2 :=
  setCell_of_ne _ _ _ _ (fun hh => h (Prod.ext hh.1 hh.2))

theorem setCell_eq_of (g : Grid) (r c : Fin 9) (v : ℕ) {i j : Fin 9}
    (h : i = r ∧ j = c) : setCell g r c v i j = v := by
  simp [setCell, h]

/-- Writing a digit drawn from `candidates` into an empty cell keeps the
board free of row/column/block duplicates. -/
theorem consistent_setCell {g : Grid} {r c : Fin 9} {n : ℕ} (_h0 : g r c = 0)
    (hn : n ∈ candSet g r c) (hc : consistent g) : consistent (setCell g r c n) := by
  obtain ⟨hIcc, hrow, hcol, hblk⟩ := mem_candSet.1 hn
  obtain ⟨hcr, hcc, hcb⟩ := hc
  refine ⟨?_, ?_, ?_⟩
  · intro r' j₁ j₂ hne hnz
    by_cases h₁ : r' = r ∧ j₁ = c
    · have h₂ : ¬(r' = r ∧ j₂ = c) := fun hh => hne (h₁.2.trans hh.2.symm)
      rw [setCell_eq_of _ _ _ _ h₁, setCell_of_ne _ _ _ _ h₂, h₁.1]
      exact fun he => hrow j₂ he.symm
    · rw [setCell_of_ne _ _ _ _ h₁] at hnz ⊢
      by_cases h₂ : r' = r ∧ j₂ = c
      · rw [setCell_eq_of _ _ _ _ h₂]
        rw [h₂.1] at hnz ⊢
        exact hrow j₁
      · rw [setCell_of_ne _ _ _ _ h₂]
        exact hcr r' j₁ j₂ hne hnz
  · intro c' i₁ i₂ hne hnz
    by_cases h₁ : i₁ = r ∧ c' = c
    · have h₂ : ¬(i₂ = r ∧ c' = c) := fun hh => hne (h₁.1.trans hh.1.symm)
      rw [setCell_eq_of _ _ _ _ h₁, setCell_of_ne _ _ _ _ h₂, h₁.2]
      exact fun he => hcol i₂ he.symm
    · rw [setCell_of_ne _ _ _ _ h₁] at hnz ⊢
      by_cases h₂ : i₂ = r ∧ c' = c
      · rw [setCell_eq_of _ _ _ _ h₂]
        rw [h₂.2] at hnz ⊢
        exact hcol i₁
      · rw [setCell_of_ne _ _ _ _ h₂]
        exact hcc c' i₁ i₂ hne hnz
  · intro p q hsb hne hnz
    by_cases h₁ : p = (r, c)
    · subst h₁
      have h₂ : q ≠ (r, c) := fun hh => hne (hh ▸ rfl)
      rw [setCell_same] at hnz ⊢
      rw [setCell_ne_coord _ _ _ _ h₂]
      have hq : q ∈ blockCells r c := mem_blockCells.2 ⟨hsb.1.symm, hsb.2.symm⟩
      exact fun he => hblk q hq he.symm
    · rw [setCell_ne_coord _ _ _ _ h₁] at hnz ⊢
      by_cases h₂ : q = (r, c)
      · subst h₂
        rw [setCell_same]
        have hp : p ∈ blockCells r c := mem_blockCells.2 ⟨hsb.1, hsb.2⟩
        exact hblk p hp
      · rw [setCell_ne_coord _ _ _ _ h₂]
        exact hcb p q hsb hne hnz

/-! ## Lemmas about the success guarantee `FrameOK` -/

theorem FrameOK_refl_of_full {g : Grid} (h : ∀ r c : Fin 9, g r c ≠ 0) : FrameOK g g :=
  ⟨fun _ _ _ => rfl, fun r c h0 => absurd h0 (h r c), id⟩

/-- `FrameOK` propagates backwards through one candidate placement. -/
theorem FrameOK.unstep {g g' : Grid} {r c : Fin 9} {n : ℕ} (h0 : g r c = 0)
    (hn : n ∈ candSet g r c) (h : FrameOK (setCell g r c n) g') : FrameOK g g' := by
  obtain ⟨hf, hz, hcons⟩ := h
  have hn1 : 1 ≤ n := (candSet_range hn).1
  have hn9 : n ≤ 9 := (candSet_range hn).2
  refine ⟨?_, ?_, ?_⟩
  · intro i j hnz
    have hne : ¬(i = r ∧ j = c) := by
      rintro ⟨rfl, rfl⟩
      exact hnz h0
    have := hf i j (by rw [setCell_of_ne _ _ _ _ hne]; exact hnz)
    rw [setCell_of_ne _ _ _ _ hne] at this
    exact this
  · intro i j h0'
    by_cases hij : i = r ∧ j = c
    · obtain ⟨rfl, rfl⟩ := hij
      have hv : setCell g i j n i j = n := setCell_same ..
      have := hf i j (by rw [hv]; omega)
      rw [hv] at this
      rw [this]
      simp only [Finset.mem_Icc]
      omega
    · exact hz i j (by rw [setCell_of_ne _ _ _ _ hij]; exact h0')
  · exact fun hcg => hcons (consistent_setCell h0 hn hcg)

/-! ## The master specification of `backtrack`

By induction on the fuel, with a nested induction on the candidate list
for the loop: a `some (false, g', cells')` result restores the board
exactly and returns a permutation of the incoming worklist; a
`some (true, g', cells')` result empties the worklist and satisfies
`FrameOK` relative to the incoming board. -/

theorem tryNums_spec (fuel : ℕ)
    (IH : ∀ g cells res, Inv g cells → backtrack fuel g cells = some res →
      (res.1 = false → res.2.1 = g ∧ res.2.2 ~ cells) ∧
      (res.1 = true → res.2.2 = [] ∧ FrameOK g res.2.1)) :
    ∀ (nums : List ℕ) (g : Grid) (cells : List Coord) (r c : Fin 9)
      (res : Bool × Grid × List Coord),
      Inv g ((r, c) :: cells) →
      (∀ n ∈ nums, n ∈ candSet g r c) →
      tryNums (backtrack fuel) r c nums g cells = some res →
      (res.1 = false → res.2.1 = g ∧ res.2.2 ~ (r, c) :: cells) ∧
      (res.1 = true → res.2.2 = [] ∧ FrameOK g res.2.1) := by
  intro nums
  induction nums with
  | nil =>
    intro g cells r c res hInv hnums heq
    simp only [tryNums, Option.some.injEq] at heq
    subst heq
    exact ⟨fun _ => ⟨rfl, List.Perm.refl _⟩, fun hT => Bool.noConfusion hT⟩
  | cons n ns ih =>
    intro g cells r c res hInv hnums heq
    have h0 : g r c = 0 := hInv.head_zero
    have hn : n ∈ candSet g r c := hnums n (List.mem_cons_self _ _)
    have hInv' : Inv (setCell g r c n) cells := hInv.assign hn
    simp only [tryNums] at heq
    rcases hbt : backtrack fuel (setCell g r c n) cells with _ | ⟨b', g', cells'⟩
    · rw [hbt] at heq
      cases heq
    · rw [hbt] at heq
      cases b' with
      | true =>
        simp only [Option.some.injEq] at heq
        subst heq
        have hI := (IH _ _ _ hInv' hbt).2 rfl
        exact ⟨fun hF => Bool.noConfusion hF, fun _ => ⟨hI.1, FrameOK.unstep h0 hn hI.2⟩⟩
      | false =>
        obtain ⟨hg', hperm⟩ := (IH _ _ _ hInv' hbt).1 rfl
        simp only at hg' hperm heq
        subst hg'
        rw [setCell_setCell, setCell_zero_of_zero g r c h0] at heq
        have hInv'' : Inv g ((r, c) :: cells') := hInv.perm (hperm.cons _)
        have hrec := ih g cells' r c res hInv''
          (fun m hm => hnums m (List.mem_cons_of_mem _ hm)) heq
        refine ⟨?_, hrec.2⟩
        intro hF
        obtain ⟨hg, hp⟩ := hrec.1 hF
        exact ⟨hg, hp.trans ((hperm.cons _))⟩

theorem backtrack_spec : ∀ (fuel : ℕ) (g : Grid) (cells : List Coord)
    (res : Bool × Grid × List Coord),
    Inv g cells → backtrack fuel g cells = some res →
    (res.1 = false → res.2.1 = g ∧ res.2.2 ~ cells) ∧
    (res.1 = true → res.2.2 = [] ∧ FrameOK g res.2.1) := by
  intro fuel
  induction fuel with
  | zero =>
    intro g cells res _ h
    simp [backtrack] at h
  | succ fuel IH =>
    intro g cells res hInv heq
    simp only [backtrack] at heq
    rcases hsort : cells.insertionSort (candLe g) with _ | ⟨⟨r, c⟩, rest⟩
    · rw [hsort] at heq
      have hcells : cells = [] := by
        have hp := List.perm_insertionSort (candLe g) cells
        rw [hsort] at hp
        exact hp.symm.eq_nil
      simp only [Option.some.injEq] at heq
      subst heq
      refine ⟨fun hF => Bool.noConfusion hF, fun _ => ⟨hcells, ?_⟩⟩
      have hfull : ∀ r c : Fin 9, g r c ≠ 0 := by
        intro r c h0
        have := (hInv.2 (r, c)).2 h0
        rw [hcells] at this
        cases this
      exact FrameOK_refl_of_full hfull
    · rw [hsort] at heq
      have hperm : (r, c) :: rest ~ cells := by
        rw [← hsort]
        exact List.perm_insertionSort _ _
      have hInv' : Inv g ((r, c) :: rest) := hInv.perm hperm
      have hspec := tryNums_spec fuel IH (candidates g r c) g rest r c res hInv'
        (fun n hn => mem_candidates.1 hn) heq
      refine ⟨?_, hspec.2⟩
      intro hF
      obtain ⟨hg, hp⟩ := hspec.1 hF
      exact ⟨hg, hp.trans hperm⟩

/-! ## Fuel sufficiency: the recursion depth is bounded by the worklist length

Each recursive call is made on a worklist one element shorter (the
selected cell was popped), and each failed call hands back a worklist
of the same length (it restores what it consumed), so fuel exceeding
the worklist length is never exhausted. -/

theorem tryNums_fuel (fuel : ℕ)
    (IHs : ∀ g cells, Inv g cells → cells.length < fuel →
      (backtrack fuel g cells).isSome) :
    ∀ (nums : List ℕ) (g : Grid) (cells : List Coord) (r c : Fin 9),
      Inv g ((r, c) :: cells) → (∀ n ∈ nums, n ∈ candSet g r c) →
      cells.length < fuel →
      (tryNums (backtrack fuel) r c nums g cells).isSome := by
  intro nums
  induction nums with
  | nil =>
    intro g cells r c _ _ _
    simp [tryNums]
  | cons n ns ih =>
    intro g cells r c hInv hnums hlen
    have h0 : g r c = 0 := hInv.head_zero
    have hn : n ∈ candSet g r c := hnums n (List.mem_cons_self _ _)
    have hInv' : Inv (setCell g r c n) cells := hInv.assign hn
    simp only [tryNums]
    rcases hbt : backtrack fuel (setCell g r c n) cells with _ | ⟨b', g', cells'⟩
    · exfalso
      have := IHs _ _ hInv' hlen
      rw [hbt] at this
      cases this
    · cases b' with
      | true => simp
      | false =>
        obtain ⟨hg', hperm⟩ := (backtrack_spec fuel _ _ _ hInv' hbt).1 rfl
        simp only at hg' hperm
        subst hg'
        simp only
        rw [setCell_setCell, setCell_zero_of_zero g r c h0]
        exact ih g cells' r c (hInv.perm (hperm.cons _))
          (fun m hm => hnums m (List.mem_cons_of_mem _ hm))
          (by rw [hperm.length_eq]; exact hlen)

theorem backtrack_fuel_sufficient : ∀ (fuel : ℕ) (g : Grid) (cells : List Coord),
    Inv g cells → cells.length < fuel → (backtrack fuel g cells).isSome := by
  intro fuel
  induction fuel with
  | zero =>
    intro g cells _ h
    exact absurd h (Nat.not_lt_zero _)
  | succ fuel IH =>
    intro g cells hInv hlen
    simp only [backtrack]
    rcases hsort : cells.insertionSort (candLe g) with _ | ⟨⟨r, c⟩, rest⟩
    · simp
    · have hperm : (r, c) :: rest ~ cells := by
        rw [← hsort]
        exact List.perm_insertionSort _ _
      have hInv' : Inv g ((r, c) :: rest) := hInv.perm hperm
      apply tryNums_fuel fuel IH (candidates g r c) g rest r c hInv'
        (fun n hn => mem_candidates.1 hn)
      have := hperm.length_eq
      simp only [List.length_cons] at this
      omega

/-! ## From `backtrack` to `solve_sudoku_optimized` -/

/-- The fuel `solve_sudoku_optimized` hands to `backtrack` is never
exhausted, so the result always comes from the `some` branch. -/
theorem solve_cases (g : Grid) :
    ∃ res : Bool × Grid × List Coord,
      backtrack ((empty_cells g).length + 1) g (empty_cells g) = some res ∧
      solve_sudoku_optimized g = (res.1, res.2.1) := by
  have hs := backtrack_fuel_sufficient ((empty_cells g).length + 1) g (empty_cells g)
    (Inv_empty_cells g) (Nat.lt_succ_self _)
  rcases hres : backtrack ((empty_cells g).length + 1) g (empty_cells g) with _ | res
  · rw [hres] at hs
    cases hs
  · exact ⟨res, rfl, by simp [solve_sudoku_optimized, hres]⟩

theorem solve_false_eq {g g' : Grid} (h : solve_sudoku_optimized g = (false, g')) :
    g' = g := by
  obtain ⟨res, hbt, hsv⟩ := solve_cases g
  rw [hsv] at h
  have h1 : res.1 = false := congrArg Prod.fst h
  have h2 : res.2.1 = g' := congrArg Prod.snd h
  have hres := (backtrack_spec _ _ _ _ (Inv_empty_cells g) hbt).1 h1
  exact h2.symm.trans hres.1

theorem solve_true_frame {g g' : Grid} (h : solve_sudoku_optimized g = (true, g')) :
    FrameOK g g' := by
  obtain ⟨res, hbt, hsv⟩ := solve_cases g
  rw [hsv] at h
  have h1 : res.1 = true := congrArg Prod.fst h
  have h2 : res.2.1 = g' := congrArg Prod.snd h
  have hres := (backtrack_spec _ _ _ _ (Inv_empty_cells g) hbt).2 h1
  exact h2 ▸ hres.2

theorem empty_cells_nil_of_full {g : Grid} (h : ∀ r c : Fin 9, g r c ≠ 0) :
    empty_cells g = [] := by
  rw [List.eq_nil_iff_forall_not_mem]
  intro p hp
  exact h p.1 p.2 (mem_empty_cells.1 hp)

/-- A board with no empty cell makes `backtrack` return `True` at once,
with the board untouched: no validation of any kind is performed. -/
theorem solve_of_full {g : Grid} (h : ∀ r c : Fin 9, g r c ≠ 0) :
    solve_sudoku_optimized g = (true, g) := by
  have hec := empty_cells_nil_of_full h
  simp [solve_sudoku_optimized, hec, backtrack]

/-! ## From consistency of a full board to row/column/block permutations -/

theorem blockCells_card : ∀ r c : Fin 9, (blockCells r c).card = 9 := by decide

theorem rowSet_eq_Icc {g : Grid} (hall : ∀ r c : Fin 9, g r c ∈ Finset.Icc 1 9)
    (hc : consistent g) (r : Fin 9) : rowSet g r = Finset.Icc 1 9 := by
  have hsub : rowSet g r ⊆ Finset.Icc 1 9 := by
    intro n hn
    simp only [rowSet, Finset.mem_image, Finset.mem_univ, true_and] at hn
    obtain ⟨j, rfl⟩ := hn
    exact hall r j
  apply Finset.eq_of_subset_of_card_le hsub
  have hinj : Function.Injective (fun j => g r j) := by
    intro j₁ j₂ he
    by_contra hne
    have h1 := hall r j₁
    simp only [Finset.mem_Icc] at h1
    exact hc.1 r j₁ j₂ hne (by omega) he
  rw [rowSet, Finset.card_image_of_injective _ hinj, Nat.card_Icc]
  simp

theorem colSet_eq_Icc {g : Grid} (hall : ∀ r c : Fin 9, g r c ∈ Finset.Icc 1 9)
    (hc : consistent g) (c : Fin 9) : colSet g c = Finset.Icc 1 9 := by
  have hsub : colSet g c ⊆ Finset.Icc 1 9 := by
    intro n hn
    simp only [colSet, Finset.mem_image, Finset.mem_univ, true_and] at hn
    obtain ⟨i, rfl⟩ := hn
    exact hall i c
  apply Finset.eq_of_subset_of_card_le hsub
  have hinj : Function.Injective (fun i => g i c) := by
    intro i₁ i₂ he
    by_contra hne
    have h1 := hall i₁ c
    simp only [Finset.mem_Icc] at h1
    exact hc.2.1 c i₁ i₂ hne (by omega) he
  rw [colSet, Finset.card_image_of_injective _ hinj, Nat.card_Icc]
  simp

theorem blockSet_eq_Icc {g : Grid} (hall : ∀ r c : Fin 9, g r c ∈ Finset.Icc 1 9)
    (hc : consistent g) (r c : Fin 9) : blockSet g r c = Finset.Icc 1 9 := by
  have hsub : blockSet g r c ⊆ Finset.Icc 1 9 := by
    intro n hn
    simp only [blockSet, Finset.mem_image] at hn
    obtain ⟨p, _, rfl⟩ := hn
    exact hall p.1 p.2
  apply Finset.eq_of_subset_of_card_le hsub
  have hinj : Set.InjOn (fun p : Coord => g p.1 p.2) (blockCells r c) := by
    intro p hp q hq he
    by_contra hne
    have hsb : sameBlock p q := by
      have hp' := mem_blockCells.1 hp
      have hq' := mem_blockCells.1 hq
      exact ⟨hp'.1.trans hq'.1.symm, hp'.2.trans hq'.2.symm⟩
    have h1 := hall p.1 p.2
    simp only [Finset.mem_Icc] at h1
    exact hc.2.2 p q hsb hne (by omega) he
  rw [blockSet, Finset.card_image_of_injOn hinj, blockCells_card, Nat.card_Icc]

/-! ## The claims -/

set_option maxRecDepth 40000
set_option maxHeartbeats 2000000

/-- C1 (amended): for every input board whose values lie in `[0, 9]` and
whose pre-filled cells contain no row/column/block duplicate, if `solve`
returns true then every row, every column and every 3×3 block of the
resulting board is a permutation of `{1, ..., 9}` (its value set is
exactly `{1, ..., 9}`, over 9 cells). -/
theorem solve_true_valid (g g' : Grid) (hle : ∀ r c : Fin 9, g r c ≤ 9)
    (hcons : consistent g) (hs : solve_sudoku_optimized g = (true, g')) :
    (∀ r, rowSet g' r = Finset.Icc 1 9) ∧ (∀ c, colSet g' c = Finset.Icc 1 9) ∧
      ∀ r c, blockSet g' r c = Finset.Icc 1 9 := by
  obtain ⟨hframe, hfill, hcp⟩ := solve_true_frame hs
  have hall : ∀ r c : Fin 9, g' r c ∈ Finset.Icc 1 9 := by
    intro r c
    by_cases h0 : g r c = 0
    · exact hfill r c h0
    · rw [hframe r c h0]
      simp only [Finset.mem_Icc]
      exact ⟨by omega, hle r c⟩
  have hc' := hcp hcons
  exact ⟨rowSet_eq_Icc hall hc', colSet_eq_Icc hall hc',
    fun r c => blockSet_eq_Icc hall hc' r c⟩

/-- C1, counterexample to the claim as stated: on the fully filled,
conflicting all-ones board, `solve` returns true, yet row 0 of the
result is not a permutation of `{1, ..., 9}`. -/
theorem solve_true_valid_cex :
    (solve_sudoku_optimized onesGrid).1 = true ∧
      rowSet (solve_sudoku_optimized onesGrid).2 0 ≠ Finset.Icc 1 9 := by decide

/-- C1, witness: the amended claim applied to the concrete valid full
board `gFull`. -/
theorem solve_true_valid_witness : rowSet gFull 0 = Finset.Icc 1 9 :=
  (solve_true_valid gFull gFull (by decide) (by decide) (by decide)).1 0

/-- C2: whenever `solve` returns false, the returned board is
element-wise identical to the input board. -/
theorem solve_false_restores (g g' : Grid)
    (hs : solve_sudoku_optimized g = (false, g')) : ∀ r c : Fin 9, g' r c = g r c :=
  fun r c => congrFun (congrFun (solve_false_eq hs) r) c

/-- C2, witness: `solve` fails on `gStuck` and hands it back unchanged. -/
theorem solve_false_restores_witness :
    solve_sudoku_optimized gStuck = (false, gStuck) ∧ gStuck 0 0 = gStuck 0 0 :=
  ⟨by decide, solve_false_restores gStuck gStuck (by decide) 0 0⟩

/-- C3: whenever `solve` returns true, every cell that held a non-zero
value in the input holds that same value in the result. -/
theorem solve_true_conservative (g g' : Grid)
    (hs : solve_sudoku_optimized g = (true, g')) :
    ∀ r c : Fin 9, g r c ≠ 0 → g' r c = g r c :=
  (solve_true_frame hs).1

/-- C3, witness: applied to the already-solved board `gFull` at cell
`(0, 0)`. -/
theorem solve_true_conservative_witness : gFull 0 0 = gFull 0 0 ∧ gFull 0 0 ≠ 0 :=
  ⟨solve_true_conservative gFull gFull (by decide) 0 0 (by decide), by decide⟩

/-- C4: for an empty cell `(r, c)`, the digits returned by `candidates`
are exactly those in `{1, ..., 9}` occurring nowhere in row `r`, nowhere
in column `c`, and nowhere in the 3×3 slice whose top-left corner is
`(3*(r/9...), ...)`, i.e. rows `3*(r/3) ≤ i < 3*(r/3)+3` and columns
`3*(c/3) ≤ j < 3*(c/3)+3`.  The computation is a pure function of the
board (the embedding threads no state out of it). -/
theorem candidates_correct (g : Grid) (r c : Fin 9) (h : g r c = 0) (n : ℕ) :
    n ∈ candidates g r c ↔
      ((1 ≤ n ∧ n ≤ 9) ∧ (∀ j, g r j ≠ n) ∧ (∀ i, g i c ≠ n) ∧
        ∀ i j : Fin 9, 3 * (r.val / 3) ≤ i.val → i.val < 3 * (r.val / 3) + 3 →
          3 * (c.val / 3) ≤ j.val → j.val < 3 * (c.val / 3) + 3 → g i j ≠ n) := by
  rw [mem_candidates, mem_candSet]
  constructor
  · rintro ⟨hIcc, hr, hc', hb⟩
    refine ⟨hIcc, hr, hc', fun i j h1 h2 h3 h4 => ?_⟩
    exact hb (i, j) (Finset.mem_filter.2 ⟨Finset.mem_univ _, h1, h2, h3, h4⟩)
  · rintro ⟨hIcc, hr, hc', hb⟩
    refine ⟨hIcc, hr, hc', fun p hp => ?_⟩
    obtain ⟨h1, h2, h3, h4⟩ := (Finset.mem_filter.1 hp).2
    exact hb p.1 p.2 h1 h2 h3 h4

/-- C4, witness: on the all-empty board, `5` is a candidate of `(0, 0)`
by the characterization. -/
theorem candidates_correct_witness : 5 ∈ candidates zeroGrid 0 0 :=
  (candidates_correct zeroGrid 0 0 rfl 5).2 (by decide)

/-- C5: the search terminates on every board: the initial worklist has
at most 81 entries, and fuel equal to the worklist length plus one
(one unit per nesting level of `backtrack`, i.e. recursion depth
bounded by the number of empty cells plus the final frame) is never
exhausted — this is the fuel `solve_sudoku_optimized` runs on. -/
theorem backtrack_terminates (g : Grid) :
    (empty_cells g).length ≤ 81 ∧
      (backtrack ((empty_cells g).length + 1) g (empty_cells g)).isSome := by
  constructor
  · have h1 : (empty_cells g).length ≤ Fintype.card Coord :=
      (nodup_empty_cells g).length_le_card
    simpa using h1
  · exact backtrack_fuel_sufficient _ _ _ (Inv_empty_cells g) (Nat.lt_succ_self _)

/-- C6: at every search step with a non-empty worklist, the selected
cell — the head of the sorted worklist, which the code pops — has a
candidate list of minimal length among all worklist entries, and ties
are broken by worklist order: the worklist splits as `l₁ ++ f :: l₂`
where every entry of `l₁` (the entries before the selected one) has
strictly more candidates.  Selection is a pure function of the board
and the worklist, hence reproducible for a given input. -/
theorem mrv_selection (g : Grid) (cells : List Coord) (hnd : cells.Nodup)
    (hne : cells ≠ []) :
    ∃ f rest, cells.insertionSort (candLe g) = f :: rest ∧
      (∀ p ∈ cells, (candidates g f.1 f.2).length ≤ (candidates g p.1 p.2).length) ∧
      ∃ l₁ l₂, cells = l₁ ++ f :: l₂ ∧
        ∀ p ∈ l₁, (candidates g f.1 f.2).length < (candidates g p.1 p.2).length := by
  rcases hsort : cells.insertionSort (candLe g) with _ | ⟨f, rest⟩
  · exfalso
    have hp := List.perm_insertionSort (candLe g) cells
    rw [hsort] at hp
    exact hne hp.symm.eq_nil
  · have hperm : f :: rest ~ cells := by
      rw [← hsort]
      exact List.perm_insertionSort _ _
    refine ⟨f, rest, rfl, ?_, ?_⟩
    · intro p hp
      rcases List.mem_cons.1 (hperm.mem_iff.2 hp) with h | h
      · rw [h]
      · have hsorted := List.sorted_insertionSort (candLe g) cells
        rw [hsort] at hsorted
        exact List.rel_of_sorted_cons hsorted p h
    · have hf : f ∈ cells := hperm.mem_iff.1 (List.mem_cons_self _ _)
      obtain ⟨l₁, l₂, hcells⟩ := List.append_of_mem hf
      subst hcells
      refine ⟨l₁, l₂, rfl, ?_⟩
      intro p hp
      by_contra hlt
      push_neg at hlt
      have hfl₁ : f ∉ l₁ := fun hm =>
        (List.disjoint_of_nodup_append hnd) hm (List.mem_cons_self _ _)
      have hpf : p ≠ f := fun he => hfl₁ (he ▸ hp)
      have hsub : [p, f] <+ l₁ ++ f :: l₂ :=
        (List.singleton_sublist.2 hp).append ((List.nil_sublist l₂).cons₂ f)
      have hstable :=
        List.pair_sublist_insertionSort (r := candLe g) hlt hsub
      rw [hsort] at hstable
      have hfrest : f ∈ rest := by
        cases hstable with
        | cons _ htail => exact htail.subset (List.mem_cons_of_mem _ (List.mem_cons_self _ _))
        | cons₂ _ htail => exact absurd rfl hpf
      have hnd' : (f :: rest).Nodup := hperm.nodup_iff.2 hnd
      exact (List.nodup_cons.1 hnd').1 hfrest

/-- C6, witness: the selection property on the all-empty board with the
two-entry worklist `[(0, 0), (0, 1)]` (a tie, broken in favour of the
first entry). -/
theorem mrv_selection_witness :
    ∃ f rest,
      ([((0 : Fin 9), (0 : Fin 9)), ((0 : Fin 9), (1 : Fin 9))] : List Coord).insertionSort
          (candLe zeroGrid) = f :: rest ∧
      (∀ p ∈ ([((0 : Fin 9), (0 : Fin 9)), ((0 : Fin 9), (1 : Fin 9))] : List Coord),
        (candidates zeroGrid f.1 f.2).length ≤ (candidates zeroGrid p.1 p.2).length) ∧
      ∃ l₁ l₂,
        ([((0 : Fin 9), (0 : Fin 9)), ((0 : Fin 9), (1 : Fin 9))] : List Coord) =
          l₁ ++ f :: l₂ ∧
        ∀ p ∈ l₁,
          (candidates zeroGrid f.1 f.2).length < (candidates zeroGrid p.1 p.2).length :=
  mrv_selection zeroGrid [(0, 0), (0, 1)] (by decide) (by decide)

/-- C7: the candidate digits of the selected cell are tried in strictly
ascending numeric order (the candidate list is `<`-sorted), and when the
recursive call on the board with `n` written at `(r, c)` fails, resetting
the cell to `0` — which is exactly what the loop does before trying the
next candidate — reproduces the board from before the assignment, and in
particular leaves `0` at `(r, c)`. -/
theorem candidate_order_and_reset (g : Grid) (r c : Fin 9) :
    List.Pairwise (· < ·) (candidates g r c) ∧
      ∀ (fuel : ℕ) (cells : List Coord) (n : ℕ) (g₁ : Grid) (cells₁ : List Coord),
        Inv g ((r, c) :: cells) → n ∈ candSet g r c →
        backtrack fuel (setCell g r c n) cells = some (false, g₁, cells₁) →
        setCell g₁ r c 0 = g ∧ setCell g₁ r c 0 r c = 0 := by
  refine ⟨candidates_sorted g r c, ?_⟩
  intro fuel cells n g₁ cells₁ hInv hn hbt
  have h0 : g r c = 0 := hInv.head_zero
  have hres := (backtrack_spec fuel _ _ _ (hInv.assign hn) hbt).1 rfl
  have hg₁ : g₁ = setCell g r c n := hres.1
  constructor
  · rw [hg₁, setCell_setCell]
    exact setCell_zero_of_zero g r c h0
  · rw [hg₁, setCell_setCell, setCell_zero_of_zero g r c h0]
    exact h0

/-- C7, witness: on `gW7`, writing `1` at `(0, 0)` makes the recursive
call fail, and resetting the cell restores the original board. -/
theorem candidate_order_and_reset_witness :
    setCell (setCell gW7 0 0 1) 0 0 0 = gW7 :=
  ((candidate_order_and_reset gW7 0 0).2 2 [(0, 1)] 1 (setCell gW7 0 0 1) [(0, 1)]
    (by decide) (by decide) (by decide)).1

/-- C8: the worklist invariant — the worklist holds exactly the
coordinates whose cell is `0`, without duplicates.  It holds for the
initial worklist; it is preserved by popping the selected cell and
assigning it a candidate digit (the state of every recursive call); and
it is stable under the reorderings (sorting, failure-path reinsertion)
the search performs, which permute the worklist. -/
theorem worklist_invariant (g : Grid) :
    Inv g (empty_cells g) ∧
      (∀ (g₀ : Grid) (cells : List Coord) (r c : Fin 9) (n : ℕ),
        Inv g₀ ((r, c) :: cells) → n ∈ candSet g₀ r c →
        Inv (setCell g₀ r c n) cells) ∧
      ∀ (g₀ : Grid) (cells cells' : List Coord),
        Inv g₀ cells → cells' ~ cells → Inv g₀ cells' :=
  ⟨Inv_empty_cells g, fun _ _ _ _ _ h hn => h.assign hn, fun _ _ _ h hp => h.perm hp⟩

/-- C8, witness: the preservation step applied concretely on the
all-empty board. -/
theorem worklist_invariant_witness :
    Inv (setCell zeroGrid 0 0 1) ((empty_cells zeroGrid).tail) :=
  (worklist_invariant zeroGrid).2.1 zeroGrid ((empty_cells zeroGrid).tail) 0 0 1
    (by decide) (by decide)

/-- C9: a board with no empty cell and no row/column/block conflict is
returned unchanged with result true, immediately. -/
theorem solve_solved_input (g : Grid) (hfull : ∀ r c : Fin 9, g r c ≠ 0)
    (_hcons : consistent g) : solve_sudoku_optimized g = (true, g) :=
  solve_of_full hfull

/-- C9, witness: the valid full board `gFull`. -/
theorem solve_solved_input_witness : solve_sudoku_optimized gFull = (true, gFull) :=
  solve_solved_input gFull (by decide) (by decide)

/-- C10: `solve` performs no input validation: any board with no empty
cell — even one violating row/column/block uniqueness — yields
`(true, unchanged board)`.  (The embedding also exhibits that the
return type of `solve_sudoku_optimized` is a bare `Bool × Grid`: there
is no invalid-input outcome distinct from the boolean.) -/
theorem solve_no_validation (g : Grid) (hfull : ∀ r c : Fin 9, g r c ≠ 0) :
    solve_sudoku_optimized g = (true, g) :=
  solve_of_full hfull

/-- C10, witness: the conflicting all-ones board is accepted as
"solved". -/
theorem solve_no_validation_witness :
    ¬ consistent onesGrid ∧ solve_sudoku_optimized onesGrid = (true, onesGrid) :=
  ⟨by decide, solve_no_validation onesGrid (by decide)⟩

end Sudoku
